import Mathlib

/-!
Verification development for the agent orchestration engine of this
repository: the two vendor wire adapters (src/lib/providers/anthropic.ts,
src/lib/providers/openai.ts) and the orchestration / history logic
(src/lib/agent/core.ts), shallowly embedded as pure Lean functions.

External effects (HTTP transport, tool side effects, Date.now, JSON.parse)
are modelled as explicit inputs: a streaming call is a function from the
list of already-parsed vendor events that arrive on the wire (an abruptly
closed transport is an event list that simply ends), and JSON.parse is an
abstract parameter returning an Option.
-/

set_option autoImplicit false

/-- Modelled from the spec: token usage pair carried by responses and chunks
(src/lib/types is not in the repository snapshot; the shape is fixed by its
uses in core.ts and the providers). -/
structure Usage where
  promptTokens : Nat
  completionTokens : Nat
  deriving DecidableEq

/-- Modelled from the spec: the canonical StreamChunk tagged union emitted by
both providers' stream operations and consumed by runAgent (its shape is
fixed by the case switches in core.ts and the yields in the providers). -/
inductive StreamChunk where
  | text (content : String)
  | toolCallStart (id : String) (name : String)
  | toolCallDelta (toolCallId : String) (args : String)
  | toolCallEnd (toolCallId : String)
  | done (finishReason : Option String) (usage : Option Usage)
  deriving DecidableEq

/-- Modelled from the spec: role of a conversation turn, one of
user / assistant / tool-result. -/
inductive Role where
  | user
  | assistant
  | tool
  deriving DecidableEq

/-- A tool invocation: id, name and parsed argument object.  The argument
object type is abstract (`α`) because JSON.parse is external to the core. -/
structure ToolCallG (α : Type) where
  id : String
  name : String
  arguments : α
  deriving DecidableEq

/-- A tool result as built in runAgent; the source omits `isError` on
success, modelled as `isError = false`. -/
structure ToolResult where
  toolCallId : String
  name : String
  content : String
  isError : Bool
  deriving DecidableEq

/-- Modelled from the spec: a ChatMessage / ConversationTurn (shape fixed by
its uses in core.ts and the providers). -/
structure ChatMessage (α : Type) where
  id : String
  role : Role
  content : String
  toolCalls : Option (List (ToolCallG α))
  toolResults : Option (List ToolResult)
  timestamp : Nat
  deriving DecidableEq

/-- Modelled from the spec: outward AgentStreamEvent union yielded by
runAgent (shape fixed by the yields in core.ts). -/
inductive AgentEvent (α : Type) where
  | text (content : String)
  | usage (promptTokens : Nat) (completionTokens : Nat)
  | toolCallsEvt (toolCalls : List (ToolCallG α))
  | toolResult (result : ToolResult)
  | toolError (error : String) (toolCallId : String)
  | done (promptTokens : Nat) (completionTokens : Nat)
  | errorEvt (error : String)
  deriving DecidableEq

/-- JS string truthiness for an optional string field: defined and nonempty. -/
def truthyOS : Option String → Bool
  | some s => s ≠ ""
  | none => false

/-- Lookup in an insertion-ordered association list (JS Map.get). -/
def assocGet {κ ν : Type} [DecidableEq κ] (m : List (κ × ν)) (k : κ) : Option ν :=
  match m with
  | [] => none
  | (k', v) :: rest => if k' = k then some v else assocGet rest k

/-- JS Map.set: update in place when the key exists (keeping its insertion
position), append otherwise. -/
def assocSet {κ ν : Type} [DecidableEq κ] (m : List (κ × ν)) (k : κ) (v : ν) : List (κ × ν) :=
  match m with
  | [] => [(k, v)]
  | (k', v') :: rest => if k' = k then (k, v) :: rest else (k', v') :: assocSet rest k v

/-- JS Map.delete. -/
def assocErase {κ ν : Type} [DecidableEq κ] (m : List (κ × ν)) (k : κ) : List (κ × ν) :=
  match m with
  | [] => []
  | (k', v') :: rest => if k' = k then rest else (k', v') :: assocErase rest k

/-! ## Anthropic wire adapter, streaming path (src/lib/providers/anthropic.ts, stream) -/

/-- The `content_block` payload of an Anthropic content_block_start event. -/
structure AnthropicBlock where
  type : String
  id : Option String
  name : Option String
  deriving DecidableEq

/-- The `delta` payload of an Anthropic content_block_delta event. -/
structure AnthropicDelta where
  type : String
  text : Option String
  partialJson : Option String
  deriving DecidableEq

/-- Raw Anthropic usage payload (input_tokens / output_tokens). -/
structure AnthropicUsageRaw where
  input_tokens : Nat
  output_tokens : Nat
  deriving DecidableEq

/-- A parsed Anthropic SSE event, as dispatched by the switch on event.type
in AnthropicProvider.stream.  Frames that fail JSON.parse are skipped by the
source (`continue`) and therefore never reach this dispatch; `other` covers
any event type the switch ignores. -/
inductive AnthropicEvent where
  | contentBlockStart (block : Option AnthropicBlock)
  | contentBlockDelta (delta : Option AnthropicDelta)
  | contentBlockStop
  | messageDelta (stopReason : Option String) (usage : Option AnthropicUsageRaw)
  | messageStop
  | other
  deriving DecidableEq

/-- AnthropicProvider.stream, from the read loop onward: the state is the
pair (currentToolId, currentToolArgs); the input list ending without a
terminal event models an abrupt transport close (the `done` guard of the
reader loop followed by the trailing `yield { type: done }`). -/
def anthropicStreamGo : List AnthropicEvent → String → String → List StreamChunk
  | [], _, _ => [.done none none]
  | ev :: rest, curId, curArgs =>
    match ev with
    | .contentBlockStart block =>
      match block with
      | some b =>
        if b.type = "tool_use" then
          .toolCallStart (b.id.getD "") (b.name.getD "") ::
            anthropicStreamGo rest (b.id.getD "") ""
        else anthropicStreamGo rest curId curArgs
      | none => anthropicStreamGo rest curId curArgs
    | .contentBlockDelta delta =>
      match delta with
      | some d =>
        if d.type = "text_delta" ∧ truthyOS d.text then
          .text (d.text.getD "") :: anthropicStreamGo rest curId curArgs
        else if d.type = "input_json_delta" ∧ truthyOS d.partialJson then
          .toolCallDelta curId (d.partialJson.getD "") ::
            anthropicStreamGo rest curId (curArgs ++ d.partialJson.getD "")
        else anthropicStreamGo rest curId curArgs
      | none => anthropicStreamGo rest curId curArgs
    | .contentBlockStop =>
      if curId ≠ "" then .toolCallEnd curId :: anthropicStreamGo rest "" ""
      else anthropicStreamGo rest curId curArgs
    | .messageDelta stopReason usage =>
      if usage.isSome ∨ truthyOS stopReason then
        [.done (stopReason.map fun s => if s = "max_tokens" then "length" else s)
          (usage.map fun u => ⟨u.input_tokens, u.output_tokens⟩)]
      else anthropicStreamGo rest curId curArgs
    | .messageStop => [.done none none]
    | .other => anthropicStreamGo rest curId curArgs

/-- AnthropicProvider.stream on a full event arrival sequence, started in the
initial state (no open tool-use block). -/
def anthropicStream (events : List AnthropicEvent) : List StreamChunk :=
  anthropicStreamGo events "" ""

/-! ## OpenAI wire adapter, streaming path (src/lib/providers/openai.ts, stream) -/

/-- One pending tool call tracked by index in OpenAIProvider.stream. -/
structure OAPending where
  id : String
  name : String
  args : String
  deriving DecidableEq

/-- The optional `function` payload of a streamed OpenAI tool-call delta. -/
structure OAFunctionRaw where
  name : Option String
  arguments : Option String
  deriving DecidableEq

/-- One element of `delta.tool_calls` in an OpenAI stream event. -/
structure OAToolCallDelta where
  index : Nat
  id : Option String
  fn : Option OAFunctionRaw
  deriving DecidableEq

/-- The `delta` of the first choice of an OpenAI stream event. -/
structure OADelta where
  content : Option String
  tool_calls : Option (List OAToolCallDelta)
  deriving DecidableEq

/-- The first choice of an OpenAI stream event. -/
structure OAChoice where
  delta : Option OADelta
  finish_reason : Option String
  deriving DecidableEq

/-- Raw OpenAI usage payload. -/
structure OAUsageRaw where
  prompt_tokens : Nat
  completion_tokens : Nat
  deriving DecidableEq

/-- A parsed OpenAI SSE payload: either the literal `[DONE]` marker or a data
event carrying choices[0] and optional usage.  Unparseable frames are skipped
by the source and never reach this dispatch. -/
inductive OpenAIEvent where
  | doneMarker
  | data (choice : Option OAChoice) (usage : Option OAUsageRaw)
  deriving DecidableEq

/-- Processing of one element of delta.tool_calls in OpenAIProvider.stream:
create a pending entry (and emit tool_call_start) when the delta carries an
id and no entry exists at that index; append argument text (and emit
tool_call_delta) when the (possibly just created) entry exists and the delta
carries nonempty arguments. -/
def oaProcessTCD (m : List (Nat × OAPending)) (tcd : OAToolCallDelta) :
    List (Nat × OAPending) × List StreamChunk :=
  let cur := assocGet m tcd.index
  let created : List (Nat × OAPending) × Option OAPending × List StreamChunk :=
    match cur with
    | some p => (m, some p, [])
    | none =>
      if truthyOS tcd.id then
        let p : OAPending := ⟨tcd.id.getD "", ((tcd.fn.bind fun f => f.name).getD ""), ""⟩
        (assocSet m tcd.index p, some p, [.toolCallStart p.id p.name])
      else (m, none, [])
  match created with
  | (m1, some p, chunks) =>
    match tcd.fn.bind fun f => f.arguments with
    | some a =>
      if a ≠ "" then
        (assocSet m1 tcd.index { p with args := p.args ++ a },
          chunks ++ [.toolCallDelta p.id a])
      else (m1, chunks)
    | none => (m1, chunks)
  | (m1, none, chunks) => (m1, chunks)

/-- Left-to-right processing of a whole delta.tool_calls array. -/
def oaProcessTCDs (m : List (Nat × OAPending)) :
    List OAToolCallDelta → List (Nat × OAPending) × List StreamChunk
  | [] => (m, [])
  | tcd :: rest =>
    let (m1, chunks) := oaProcessTCD m tcd
    let (m2, more) := oaProcessTCDs m1 rest
    (m2, chunks ++ more)

/-- The finalize-on-end pass of OpenAIProvider.stream: one tool_call_end per
still-pending entry, in insertion order. -/
def oaFinalizeEnds (m : List (Nat × OAPending)) : List StreamChunk :=
  m.map fun kv => .toolCallEnd kv.2.id

/-- OpenAIProvider.stream from the read loop onward: state is the pending
map (keyed by choice index) and the last seen finish_reason.  An input list
ending without `[DONE]` or a usage event models an abrupt transport close
(the trailing finalize + `yield { type: done }` of the source). -/
def openAIStreamGo : List OpenAIEvent → List (Nat × OAPending) → Option String → List StreamChunk
  | [], m, lastFin => oaFinalizeEnds m ++ [.done lastFin none]
  | ev :: rest, m, lastFin =>
    match ev with
    | .doneMarker => oaFinalizeEnds m ++ [.done lastFin none]
    | .data choice usage =>
      match choice with
      | none => openAIStreamGo rest m lastFin
      | some ch =>
        match ch.delta with
        | none => openAIStreamGo rest m lastFin
        | some d =>
          let lastFin1 := if truthyOS ch.finish_reason then ch.finish_reason else lastFin
          let textChunks : List StreamChunk :=
            match d.content with
            | some c => if c ≠ "" then [.text c] else []
            | none => []
          let (m1, tcChunks) := oaProcessTCDs m (d.tool_calls.getD [])
          match usage with
          | some u =>
            textChunks ++ tcChunks ++ oaFinalizeEnds m1 ++
              [.done lastFin1 (some ⟨u.prompt_tokens, u.completion_tokens⟩)]
          | none => textChunks ++ tcChunks ++ openAIStreamGo rest m1 lastFin1

/-- OpenAIProvider.stream on a full event arrival sequence, started with an
empty pending map and no finish reason. -/
def openAIStream (events : List OpenAIEvent) : List StreamChunk :=
  openAIStreamGo events [] none

/-- Is a chunk the turn-finished (`done`) chunk? -/
def isDoneChunk : StreamChunk → Bool
  | .done _ _ => true
  | _ => false

/-- Is a chunk a tool_call_start for the given id? -/
def isStartFor (id : String) : StreamChunk → Bool
  | .toolCallStart i _ => i = id
  | _ => false

/-- Is a chunk a tool_call_end for the given id? -/
def isEndFor (id : String) : StreamChunk → Bool
  | .toolCallEnd i => i = id
  | _ => false

/-- Number of done chunks in a sequence. -/
def doneCount (l : List StreamChunk) : Nat := l.countP isDoneChunk

/-- Number of tool_call_start chunks for a given id. -/
def startCount (id : String) (l : List StreamChunk) : Nat := l.countP (isStartFor id)

/-- Number of tool_call_end chunks for a given id. -/
def endCount (id : String) (l : List StreamChunk) : Nat := l.countP (isEndFor id)

/-- Number of pending entries whose stored tool-call id is the given id. -/
def pendingCount (id : String) (m : List (Nat × OAPending)) : Nat :=
  m.countP fun kv => kv.2.id = id

/-! ## Non-streaming chat path of both adapters (C8) -/

/-- An HTTP response as observed by the adapter after fetch: status, raw body
text, and (on the success path) the body parsed as the vendor's JSON shape.
The transport itself is external; the adapter's behavior is a function of
this observation. -/
structure HttpResponse (δ : Type) where
  status : Nat
  body : String
  data : δ
  deriving DecidableEq

/-- fetch's Response.ok: status in the inclusive range 200–299. -/
def fetchOk (status : Nat) : Bool := decide (200 ≤ status ∧ status < 300)

/-- Failure of the chat path: either the UpstreamError thrown on a
non-success HTTP status (the source throws an Error whose message embeds
exactly the response status and body text), or an exception propagating out
of JSON.parse on a tool-call argument string (OpenAI chat only). -/
inductive ChatError where
  | upstream (status : Nat) (body : String)
  | thrown (msg : String)
  deriving DecidableEq

/-- The canonical LLMResponse produced by the non-streaming chat path. -/
structure LLMResponse (α : Type) where
  content : String
  toolCalls : Option (List (ToolCallG α))
  usage : Option Usage
  deriving DecidableEq

/-- One block of an Anthropic messages-API response body. -/
inductive AnthChatBlock (α : Type) where
  | text (text : String)
  | toolUse (id : String) (name : String) (input : α)
  | other
  deriving DecidableEq

/-- Parsed JSON body of a successful Anthropic messages-API response. -/
structure AnthChatData (α : Type) where
  content : List (AnthChatBlock α)
  usage : Option AnthropicUsageRaw
  deriving DecidableEq

/-- The block-folding loop of AnthropicProvider.chat: text blocks are
concatenated, tool_use blocks are collected in order. -/
def anthChatFold {α : Type} : List (AnthChatBlock α) → String → List (ToolCallG α) →
    String × List (ToolCallG α)
  | [], content, toolCalls => (content, toolCalls)
  | b :: rest, content, toolCalls =>
    match b with
    | .text t => anthChatFold rest (content ++ t) toolCalls
    | .toolUse i n inp => anthChatFold rest content (toolCalls ++ [⟨i, n, inp⟩])
    | .other => anthChatFold rest content toolCalls

/-- AnthropicProvider.chat from the fetch response onward: throw an
UpstreamError on !res.ok, otherwise fold the content blocks into an
LLMResponse. -/
def anthropicChat {α : Type} (resp : HttpResponse (AnthChatData α)) :
    Except ChatError (LLMResponse α) :=
  if fetchOk resp.status then
    let (content, toolCalls) := anthChatFold resp.data.content "" []
    .ok { content := content
          toolCalls := if toolCalls.length > 0 then some toolCalls else none
          usage := resp.data.usage.map fun u => ⟨u.input_tokens, u.output_tokens⟩ }
  else .error (.upstream resp.status resp.body)

/-- The `function` member of a tool call in an OpenAI chat response body. -/
structure OAChatFnRaw where
  name : String
  arguments : String
  deriving DecidableEq

/-- One tool call of an OpenAI chat response body (`fn` models the member
named `function` in the wire format). -/
structure OAChatToolCallRaw where
  id : String
  fn : OAChatFnRaw
  deriving DecidableEq

/-- The message of the first choice of an OpenAI chat response body. -/
structure OAChatMsgRaw where
  content : Option String
  tool_calls : Option (List OAChatToolCallRaw)
  deriving DecidableEq

/-- One choice of an OpenAI chat response body. -/
structure OAChatChoiceRaw where
  message : Option OAChatMsgRaw
  deriving DecidableEq

/-- Parsed JSON body of a successful OpenAI chat response. -/
structure OAChatData where
  choices : List OAChatChoiceRaw
  usage : Option OAUsageRaw
  deriving DecidableEq

/-- The tool_calls mapping of OpenAIProvider.chat: each raw argument string
goes through JSON.parse, whose failure (source has no try/catch here)
propagates as a thrown exception. -/
def oaParseRawToolCalls {α : Type} (parse : String → Option α) :
    List OAChatToolCallRaw → Except ChatError (List (ToolCallG α))
  | [] => .ok []
  | tc :: rest =>
    match parse tc.fn.arguments with
    | some args =>
      match oaParseRawToolCalls parse rest with
      | .ok l => .ok (⟨tc.id, tc.fn.name, args⟩ :: l)
      | .error e => .error e
    | none => .error (.thrown ("Unexpected token in JSON: " ++ tc.fn.arguments))

/-- OpenAIProvider.chat from the fetch response onward: throw an
UpstreamError on !res.ok, otherwise read choices[0].message into an
LLMResponse. -/
def openAIChat {α : Type} (parse : String → Option α) (resp : HttpResponse OAChatData) :
    Except ChatError (LLMResponse α) :=
  if fetchOk resp.status then
    let message := resp.data.choices.head?.bind fun c => c.message
    let rawCalls := message.bind fun msg => msg.tool_calls
    match rawCalls with
    | none =>
      .ok { content := (message.bind fun msg => msg.content).getD ""
            toolCalls := none
            usage := resp.data.usage.map fun u => ⟨u.prompt_tokens, u.completion_tokens⟩ }
    | some raw =>
      match oaParseRawToolCalls parse raw with
      | .error e => .error e
      | .ok toolCalls =>
        .ok { content := (message.bind fun msg => msg.content).getD ""
              toolCalls := if toolCalls.length > 0 then some toolCalls else none
              usage := resp.data.usage.map fun u => ⟨u.prompt_tokens, u.completion_tokens⟩ }
  else .error (.upstream resp.status resp.body)

/-! ## Orchestration loop (src/lib/agent/core.ts, runAgent) -/

/-- The loop constants of core.ts. -/
def MAX_ITERATIONS : Nat := 5

/-- Maximum retained history length of core.ts. -/
def MAX_HISTORY : Nat := 20

/-- Per-result character budget of core.ts. -/
def MAX_TOOL_RESULT_CHARS : Nat := 3000

/-- One entry of runAgent's pendingToolCalls map. -/
structure PendingTC where
  id : String
  name : String
  args : String
  deriving DecidableEq

/-- The mutable state of one round's chunk-consuming loop in runAgent,
together with the events yielded so far and the cumulative token totals
threaded across rounds. -/
structure ChunkState (α : Type) where
  assistantContent : String
  toolCalls : List (ToolCallG α)
  pending : List (String × PendingTC)
  finishReason : Option String
  totalPromptTokens : Nat
  totalCompletionTokens : Nat
  events : List (AgentEvent α)
  deriving DecidableEq

/-- The argument finalization of runAgent's tool_call_end case:
`completed.args ? JSON.parse(completed.args) : {}` inside try/catch with
`parsedArgs` initialized to the empty object `e`. -/
def parseArgsJS {α : Type} (parse : String → Option α) (e : α) (s : String) : α :=
  if s = "" then e else (parse s).getD e

/-- The switch body of runAgent's chunk loop, for one canonical chunk. -/
def processChunk {α : Type} (parse : String → Option α) (e : α)
    (s : ChunkState α) : StreamChunk → ChunkState α
  | .text c =>
    { s with assistantContent := s.assistantContent ++ c
             events := s.events ++ [.text c] }
  | .toolCallStart id name =>
    { s with pending := assocSet s.pending id ⟨id, name, ""⟩ }
  | .toolCallDelta id args =>
    match assocGet s.pending id with
    | some p => { s with pending := assocSet s.pending id { p with args := p.args ++ args } }
    | none => s
  | .toolCallEnd id =>
    match assocGet s.pending id with
    | some p =>
      { s with toolCalls := s.toolCalls ++ [⟨p.id, p.name, parseArgsJS parse e p.args⟩]
               pending := assocErase s.pending id }
    | none => s
  | .done fr u =>
    match u with
    | some usage =>
      let tp := s.totalPromptTokens + usage.promptTokens
      let tc := s.totalCompletionTokens + usage.completionTokens
      { s with finishReason := fr
               totalPromptTokens := tp
               totalCompletionTokens := tc
               events := s.events ++ [.usage tp tc] }
    | none => { s with finishReason := fr }

/-- runAgent's chunk loop over a whole canonical chunk sequence. -/
def processChunks {α : Type} (parse : String → Option α) (e : α) :
    ChunkState α → List StreamChunk → ChunkState α
  | s, [] => s
  | s, c :: rest => processChunks parse e (processChunk parse e s c) rest

/-- The per-round initial chunk state of runAgent (fresh content, tool-call
list, pending map and finish reason; token totals carried over). -/
def initChunkState (α : Type) (tp tc : Nat) : ChunkState α :=
  { assistantContent := ""
    toolCalls := []
    pending := []
    finishReason := none
    totalPromptTokens := tp
    totalCompletionTokens := tc
    events := [] }

/-- One round's stream consumption in runAgent: fold the provider's chunk
sequence from the fresh per-round state. -/
def runRound {α : Type} (parse : String → Option α) (e : α)
    (chunks : List StreamChunk) (tp tc : Nat) : ChunkState α :=
  processChunks parse e (initChunkState α tp tc) chunks

/-- The body of runAgent's tool-execution loop for one invocation: an
unregistered name or a failed execution produces an error-flagged ToolResult
and a tool_error event; success produces a plain ToolResult and a
tool_result event.  A thrown non-Error value surfaces as the message
'Tool execution failed'; the `Except.error` message already models
`err.message`. -/
def execOneCall {α : Type} (registry : String → Option (α → Except String String))
    (tc : ToolCallG α) : ToolResult × AgentEvent α :=
  match registry tc.name with
  | none =>
    (⟨tc.id, tc.name, "Unknown tool: " ++ tc.name, true⟩,
      .toolError ("Unknown tool: " ++ tc.name) tc.id)
  | some exec =>
    match exec tc.arguments with
    | .ok result => (⟨tc.id, tc.name, result, false⟩, .toolResult ⟨tc.id, tc.name, result, false⟩)
    | .error errMsg => (⟨tc.id, tc.name, errMsg, true⟩, .toolError errMsg tc.id)

/-- runAgent's sequential tool-execution loop, in call order. -/
def execToolCalls {α : Type} (registry : String → Option (α → Except String String)) :
    List (ToolCallG α) → List ToolResult × List (AgentEvent α)
  | [] => ([], [])
  | tc :: rest =>
    let (r, ev) := execOneCall registry tc
    let (rs, evs) := execToolCalls registry rest
    (r :: rs, ev :: evs)

/-- The per-result truncation applied before storing tool results. -/
def truncateResult (r : ToolResult) : ToolResult :=
  { r with content :=
      if r.content.length > MAX_TOOL_RESULT_CHARS then
        r.content.take MAX_TOOL_RESULT_CHARS ++
          "\n\n... [truncated — data continues beyond this point]"
      else r.content }

/-- JS truthiness of msg.toolCalls?.length. -/
def hasCalls {α : Type} (m : ChatMessage α) : Bool := !(m.toolCalls.getD []).isEmpty

/-- JS truthiness of msg.toolResults?.length. -/
def hasResults {α : Type} (m : ChatMessage α) : Bool := !(m.toolResults.getD []).isEmpty

/-- The tool-summary line rendered for one result while flattening. -/
def toolSummaryLine (r : ToolResult) : String :=
  "[" ++ r.name ++ "]: " ++ r.content.take 500 ++
    (if r.content.length > 500 then "..." else "")

/-- flattenToolHistory of core.ts: drop raw tool messages, rewrite assistant
messages that carried tool calls into plain text (folding in the next
message's tool results when present), pass everything else through. -/
def flattenToolHistory {α : Type} : List (ChatMessage α) → List (ChatMessage α)
  | [] => []
  | msg :: rest =>
    if msg.role = .tool then flattenToolHistory rest
    else if msg.role = .assistant ∧ hasCalls msg then
      let flatContent :=
        match rest with
        | next :: _ =>
          if next.role = .tool ∧ hasResults next then
            let toolSummary :=
              String.intercalate "\n\n" ((next.toolResults.getD []).map toolSummaryLine)
            if msg.content = "" then toolSummary else msg.content ++ "\n\n" ++ toolSummary
          else msg.content
        | [] => msg.content
      { msg with role := .assistant
                 content := if flatContent = "" then "(used tools)" else flatContent
                 toolCalls := none
                 toolResults := none } :: flattenToolHistory rest
    else msg :: flattenToolHistory rest

/-- Index of the first user message, used by trimHistory's forward scan. -/
def findUserIdx {α : Type} : List (ChatMessage α) → Option Nat
  | [] => none
  | m :: rest =>
    if m.role = .user then some 0 else (findUserIdx rest).map (· + 1)

/-- trimHistory of core.ts: a history of at most `max` messages is returned
unchanged; otherwise scan the last `max` messages for a user message and
slice from the first one found, falling back to the plain last-`max` slice. -/
def trimHistory {α : Type} (messages : List (ChatMessage α)) (max : Nat) :
    List (ChatMessage α) :=
  if messages.length ≤ max then messages
  else
    match findUserIdx (messages.drop (messages.length - max)) with
    | some j => messages.drop (messages.length - max + j)
    | none => messages.drop (messages.length - max)

/-- The warning text appended when the model stops with finish reason
`length` and no tool calls. -/
def lengthWarning : String :=
  "\n\n---\n*Response was cut short because the model reached its output token limit. Try asking a more focused question, or switch to a model with a larger context window.*"

/-- The notice emitted for an empty first-round response. -/
def emptyResponseNotice : String :=
  "The model returned an empty response. This can happen with some providers — please try again or switch models."

/-- Result of the bounded agent loop. -/
structure LoopResult (α : Type) where
  events : List (AgentEvent α)
  history : List (ChatMessage α)
  totalPromptTokens : Nat
  totalCompletionTokens : Nat
  rounds : Nat
  deriving DecidableEq

/-- The bounded for-loop of runAgent.  The provider's model turns are an
external input, given per iteration as a canonical chunk sequence (`provider
iteration`); `genId` and `now` model the external generateId / Date.now.
Each executed iteration counts one round; the loop stops when a round yields
no tool calls or when the iteration bound is exhausted. -/
def agentLoop {α : Type} (parse : String → Option α) (e : α)
    (genId : Unit → String) (now : Unit → Nat)
    (provider : Nat → List StreamChunk)
    (registry : String → Option (α → Except String String)) :
    Nat → Nat → List (ChatMessage α) → Nat → Nat → LoopResult α
  | 0, _, history, tp, tc =>
    { events := [], history := history, totalPromptTokens := tp
      totalCompletionTokens := tc, rounds := 0 }
  | fuel + 1, iteration, history, tp, tc =>
    let st := runRound parse e (provider iteration) tp tc
    let assistantMsg : ChatMessage α :=
      { id := genId (), role := .assistant, content := st.assistantContent
        toolCalls := if st.toolCalls.length > 0 then some st.toolCalls else none
        toolResults := none, timestamp := now () }
    let history1 := history ++ [assistantMsg]
    if st.toolCalls.length = 0 then
      let warn : List (AgentEvent α) :=
        if st.finishReason = some "length" then [.text lengthWarning]
        else if iteration = 0 ∧ st.assistantContent.trim = "" then [.text emptyResponseNotice]
        else []
      { events := st.events ++ warn, history := history1
        totalPromptTokens := st.totalPromptTokens
        totalCompletionTokens := st.totalCompletionTokens, rounds := 1 }
    else
      let (toolResults, execEvents) := execToolCalls registry st.toolCalls
      let truncatedResults := toolResults.map truncateResult
      let toolMsg : ChatMessage α :=
        { id := genId (), role := .tool
          content := String.intercalate "\n\n"
            (truncatedResults.map fun r => "[" ++ r.name ++ "]: " ++ r.content)
          toolCalls := none, toolResults := some truncatedResults, timestamp := now () }
      let rec' := agentLoop parse e genId now provider registry fuel (iteration + 1)
        (history1 ++ [toolMsg]) st.totalPromptTokens st.totalCompletionTokens
      { rec' with
          events := st.events ++ [.toolCallsEvt st.toolCalls] ++ execEvents ++ rec'.events
          rounds := rec'.rounds + 1 }

/-- Result of one whole runAgent call. -/
structure RunResult (α : Type) where
  events : List (AgentEvent α)
  history : List (ChatMessage α)
  rounds : Nat
  deriving DecidableEq

/-- runAgent of core.ts on the happy control path (schema load, persistence
and the fire-and-forget memory extraction are external collaborators whose
failures the source swallows): flatten the stored history, append the user
message, run the bounded loop, trim and emit the terminal done event with
the cumulative token totals. -/
def runAgent {α : Type} (parse : String → Option α) (e : α)
    (genId : Unit → String) (now : Unit → Nat)
    (provider : Nat → List StreamChunk)
    (registry : String → Option (α → Except String String))
    (chatHistory : List (ChatMessage α)) (userMessage : String) : RunResult α :=
  let history0 := flattenToolHistory chatHistory
  let userMsg : ChatMessage α :=
    { id := genId (), role := .user, content := userMessage
      toolCalls := none, toolResults := none, timestamp := now () }
  let lr := agentLoop parse e genId now provider registry MAX_ITERATIONS 0
    (history0 ++ [userMsg]) 0 0
  { events := lr.events ++ [.done lr.totalPromptTokens lr.totalCompletionTokens]
    history := trimHistory lr.history MAX_HISTORY
    rounds := lr.rounds }

/-- The concatenation, in arrival order, of the tool_call_delta fragments
belonging to one tool-call identifier. -/
def deltaConcat (id : String) : List StreamChunk → String
  | [] => ""
  | c :: rest =>
    match c with
    | .toolCallDelta i a => (if i = id then a else "") ++ deltaConcat id rest
    | _ => deltaConcat id rest

/-- Is an outward event the terminal error event? -/
def isErrorEvent {α : Type} : AgentEvent α → Bool
  | .errorEvt _ => true
  | _ => false

/-- A history is well formed for the data model of the core: tool
invocations only on assistant turns, tool results only on tool turns, and
optional lists are absent rather than present-but-empty. -/
def WellFormedHistory {α : Type} (h : List (ChatMessage α)) : Prop :=
  ∀ m ∈ h, (m.role ≠ .assistant → m.toolCalls = none) ∧
    (m.role ≠ .tool → m.toolResults = none) ∧
    m.toolCalls ≠ some [] ∧ m.toolResults ≠ some []

/-- A chunk sequence that consists of zero or more non-done chunks followed
by exactly one done (turn-finished) chunk. -/
def EndsOneDone (l : List StreamChunk) : Prop :=
  ∃ pre fr u, l = pre ++ [StreamChunk.done fr u] ∧ ∀ c ∈ pre, isDoneChunk c = false

/-! ## Theorems -/

theorem endsOneDone_doneCount {l : List StreamChunk} (h : EndsOneDone l) :
    doneCount l = 1 ∧ ∃ c, l.getLast? = some c ∧ isDoneChunk c = true := by
  obtain ⟨pre, fr, u, heq, hpre⟩ := h
  subst heq
  refine ⟨?_, StreamChunk.done fr u, List.getLast?_concat pre, rfl⟩
  have hz : pre.countP isDoneChunk = 0 := List.countP_eq_zero.mpr fun c hc => by
    simp [hpre c hc]
  simp [doneCount, List.countP_append, hz, List.countP_cons, isDoneChunk]

theorem endsOneDone_cons {c : StreamChunk} {l : List StreamChunk}
    (hc : isDoneChunk c = false) (h : EndsOneDone l) : EndsOneDone (c :: l) := by
  obtain ⟨pre, fr, u, heq, hpre⟩ := h
  refine ⟨c :: pre, fr, u, by simp [heq], ?_⟩
  intro x hx
  rcases List.mem_cons.mp hx with rfl | hx
  · exact hc
  · exact hpre x hx

theorem endsOneDone_append_front {p l : List StreamChunk}
    (hp : ∀ c ∈ p, isDoneChunk c = false) (h : EndsOneDone l) : EndsOneDone (p ++ l) := by
  induction p with
  | nil => simpa using h
  | cons c rest ih =>
    have := ih fun x hx => hp x (List.mem_cons_of_mem c hx)
    simpa using endsOneDone_cons (hp c (List.mem_cons_self c rest)) this

theorem endsOneDone_single (fr : Option String) (u : Option Usage) :
    EndsOneDone [StreamChunk.done fr u] :=
  ⟨[], fr, u, rfl, by simp⟩

theorem anthropicStreamGo_endsOneDone :
    ∀ (evs : List AnthropicEvent) (curId curArgs : String),
      EndsOneDone (anthropicStreamGo evs curId curArgs) := by
  intro evs
  induction evs with
  | nil => intro curId curArgs; exact endsOneDone_single none none
  | cons ev rest ih =>
    intro curId curArgs
    cases ev with
    | contentBlockStart block =>
      cases block with
      | none => simpa only [anthropicStreamGo] using ih curId curArgs
      | some b =>
        by_cases hb : b.type = "tool_use"
        · simp only [anthropicStreamGo, if_pos hb]
          exact endsOneDone_cons rfl (ih _ _)
        · simp only [anthropicStreamGo, if_neg hb]
          exact ih _ _
    | contentBlockDelta delta =>
      cases delta with
      | none => simpa only [anthropicStreamGo] using ih curId curArgs
      | some d =>
        by_cases h1 : d.type = "text_delta" ∧ truthyOS d.text = true
        · simp only [anthropicStreamGo, if_pos h1]
          exact endsOneDone_cons rfl (ih _ _)
        · by_cases h2 : d.type = "input_json_delta" ∧ truthyOS d.partialJson = true
          · simp only [anthropicStreamGo, if_neg h1, if_pos h2]
            exact endsOneDone_cons rfl (ih _ _)
          · simp only [anthropicStreamGo, if_neg h1, if_neg h2]
            exact ih _ _
    | contentBlockStop =>
      by_cases hc : curId ≠ ""
      · simp only [anthropicStreamGo, if_pos hc]
        exact endsOneDone_cons rfl (ih _ _)
      · simp only [anthropicStreamGo, if_neg hc]
        exact ih _ _
    | messageDelta stopReason usage =>
      by_cases hm : usage.isSome = true ∨ truthyOS stopReason = true
      · simp only [anthropicStreamGo, if_pos hm]
        exact endsOneDone_single _ _
      · simp only [anthropicStreamGo, if_neg hm]
        exact ih _ _
    | messageStop => exact endsOneDone_single none none
    | other => simpa only [anthropicStreamGo] using ih curId curArgs

theorem oaProcessTCD_chunks_shape (m : List (Nat × OAPending)) (tcd : OAToolCallDelta) :
    ∀ c ∈ (oaProcessTCD m tcd).2,
      (∃ i n, c = StreamChunk.toolCallStart i n) ∨ ∃ i a, c = StreamChunk.toolCallDelta i a := by
  intro c hc
  unfold oaProcessTCD at hc
  rcases hget : assocGet m tcd.index with _ | p <;> simp only [hget] at hc
  · by_cases hid : truthyOS tcd.id = true
    · simp only [if_pos hid] at hc
      rcases hargs : tcd.fn.bind (fun f => f.arguments) with _ | a <;>
        simp only [hargs] at hc
      · rcases List.mem_singleton.mp hc with rfl
        exact .inl ⟨_, _, rfl⟩
      · by_cases ha : a ≠ ""
        · simp only [if_pos ha] at hc
          rcases List.mem_append.mp hc with hc | hc
          · rcases List.mem_singleton.mp hc with rfl
            exact .inl ⟨_, _, rfl⟩
          · rcases List.mem_singleton.mp hc with rfl
            exact .inr ⟨_, _, rfl⟩
        · simp only [if_neg ha] at hc
          rcases List.mem_singleton.mp hc with rfl
          exact .inl ⟨_, _, rfl⟩
    · simp only [if_neg hid] at hc
      simp at hc
  · rcases hargs : tcd.fn.bind (fun f => f.arguments) with _ | a <;>
      simp only [hargs] at hc
    · simp at hc
    · by_cases ha : a ≠ ""
      · simp only [if_pos ha] at hc
        rcases List.mem_append.mp hc with hc | hc
        · simp at hc
        · rcases List.mem_singleton.mp hc with rfl
          exact .inr ⟨_, _, rfl⟩
      · simp only [if_neg ha] at hc
        simp at hc

theorem oaProcessTCDs_chunks_shape (tcds : List OAToolCallDelta) :
    ∀ (m : List (Nat × OAPending)), ∀ c ∈ (oaProcessTCDs m tcds).2,
      (∃ i n, c = StreamChunk.toolCallStart i n) ∨ ∃ i a, c = StreamChunk.toolCallDelta i a := by
  induction tcds with
  | nil => intro m c hc; simp [oaProcessTCDs] at hc
  | cons tcd rest ih =>
    intro m c hc
    simp only [oaProcessTCDs] at hc
    rcases List.mem_append.mp hc with hc | hc
    · exact oaProcessTCD_chunks_shape m tcd c hc
    · exact ih _ c hc

theorem oaProcessTCDs_no_done (tcds : List OAToolCallDelta) (m : List (Nat × OAPending)) :
    ∀ c ∈ (oaProcessTCDs m tcds).2, isDoneChunk c = false := by
  intro c hc
  rcases oaProcessTCDs_chunks_shape tcds m c hc with ⟨i, n, rfl⟩ | ⟨i, a, rfl⟩ <;> rfl

theorem oaFinalizeEnds_no_done (m : List (Nat × OAPending)) :
    ∀ c ∈ oaFinalizeEnds m, isDoneChunk c = false := by
  intro c hc
  obtain ⟨kv, _, rfl⟩ := List.mem_map.mp hc
  rfl

theorem openAIStreamGo_endsOneDone :
    ∀ (evs : List OpenAIEvent) (m : List (Nat × OAPending)) (lastFin : Option String),
      EndsOneDone (openAIStreamGo evs m lastFin) := by
  intro evs
  induction evs with
  | nil =>
    intro m lastFin
    exact endsOneDone_append_front (oaFinalizeEnds_no_done m) (endsOneDone_single _ _)
  | cons ev rest ih =>
    intro m lastFin
    cases ev with
    | doneMarker =>
      exact endsOneDone_append_front (oaFinalizeEnds_no_done m) (endsOneDone_single _ _)
    | data choice usage =>
      cases choice with
      | none => simpa only [openAIStreamGo] using ih m lastFin
      | some ch =>
        rcases hd : ch.delta with _ | d
        · simp only [openAIStreamGo, hd]
          exact ih m lastFin
        · simp only [openAIStreamGo, hd]
          have htext : ∀ c ∈ (match d.content with
              | some c => if c ≠ "" then [StreamChunk.text c] else []
              | none => ([] : List StreamChunk)), isDoneChunk c = false := by
            intro c hc
            rcases hdc : d.content with _ | t <;> rw [hdc] at hc
            · simp at hc
            · by_cases ht : t = ""
              · simp [ht] at hc
              · simp only [ne_eq, ht, not_false_eq_true, if_true, if_pos] at hc
                rcases List.mem_singleton.mp hc with rfl
                rfl
          cases usage with
          | some u =>
            refine endsOneDone_append_front ?_ (endsOneDone_single _ _)
            intro c hc
            rcases List.mem_append.mp hc with hc | hc
            · rcases List.mem_append.mp hc with hc | hc
              · exact htext c hc
              · exact oaProcessTCDs_no_done _ _ c hc
            · exact oaFinalizeEnds_no_done _ c hc
          | none =>
            refine endsOneDone_append_front ?_ (ih _ _)
            intro c hc
            rcases List.mem_append.mp hc with hc | hc
            · exact htext c hc
            · exact oaProcessTCDs_no_done _ _ c hc

/-- C1: for every input event stream consumed by a streaming adapter
(AnthropicProvider.stream or OpenAIProvider.stream), including streams whose
transport ends abruptly without a completion or stop event, the canonical
chunk sequence contains exactly one done (turn-finished) chunk, and that
chunk is the last chunk of the sequence. -/
theorem streams_contain_exactly_one_final_done
    (aEvents : List AnthropicEvent) (oEvents : List OpenAIEvent) :
    (doneCount (anthropicStream aEvents) = 1 ∧
      ∃ c, (anthropicStream aEvents).getLast? = some c ∧ isDoneChunk c = true) ∧
    (doneCount (openAIStream oEvents) = 1 ∧
      ∃ c, (openAIStream oEvents).getLast? = some c ∧ isDoneChunk c = true) :=
  ⟨endsOneDone_doneCount (anthropicStreamGo_endsOneDone aEvents "" ""),
   endsOneDone_doneCount (openAIStreamGo_endsOneDone oEvents [] none)⟩

theorem assocSet_of_get_none {κ ν : Type} [DecidableEq κ]
    (m : List (κ × ν)) (k : κ) (v : ν) (h : assocGet m k = none) :
    assocSet m k v = m ++ [(k, v)] := by
  induction m with
  | nil => rfl
  | cons kv rest ih =>
    obtain ⟨k', v'⟩ := kv
    by_cases hk : k' = k
    · simp [assocGet, hk] at h
    · simp only [assocGet, if_neg hk] at h
      simp [assocSet, if_neg hk, ih h]

theorem assocGet_set_self {κ ν : Type} [DecidableEq κ] (m : List (κ × ν)) (k : κ) (v : ν) :
    assocGet (assocSet m k v) k = some v := by
  induction m with
  | nil => simp [assocSet, assocGet]
  | cons kv rest ih =>
    obtain ⟨k', v'⟩ := kv
    by_cases hk : k' = k
    · simp [assocSet, assocGet, hk]
    · simp [assocSet, assocGet, if_neg hk, ih]

theorem assocGet_set_ne {κ ν : Type} [DecidableEq κ] (m : List (κ × ν)) (k k' : κ) (v : ν)
    (h : k' ≠ k) : assocGet (assocSet m k v) k' = assocGet m k' := by
  induction m with
  | nil =>
    simp only [assocSet, assocGet]
    rw [if_neg fun hh => h hh.symm]
  | cons kv rest ih =>
    obtain ⟨k₀, v₀⟩ := kv
    by_cases hk : k₀ = k
    · subst hk
      simp only [assocSet, if_pos rfl, assocGet]
      rw [if_neg fun hh => h hh.symm, if_neg fun hh => h hh.symm]
    · simp only [assocSet, if_neg hk, assocGet]
      by_cases hk' : k₀ = k'
      · simp [hk']
      · simp [if_neg hk', ih]

theorem assocGet_erase_ne {κ ν : Type} [DecidableEq κ] (m : List (κ × ν)) (k k' : κ)
    (h : k' ≠ k) : assocGet (assocErase m k) k' = assocGet m k' := by
  induction m with
  | nil => rfl
  | cons kv rest ih =>
    obtain ⟨k₀, v₀⟩ := kv
    by_cases hk : k₀ = k
    · subst hk
      have h1 : assocErase ((k₀, v₀) :: rest) k₀ = rest := by
        simp [assocErase]
      have h2 : assocGet ((k₀, v₀) :: rest) k' = assocGet rest k' := by
        simp only [assocGet]
        exact if_neg fun hh => h hh.symm
      rw [h1, h2]
    · simp only [assocErase, if_neg hk, assocGet]
      by_cases hk' : k₀ = k'
      · simp [hk']
      · simp [if_neg hk', ih]

theorem pendingCount_set_idpreserve {m : List (Nat × OAPending)} {k : Nat} {p : OAPending}
    (v : OAPending) (i : String) (h : assocGet m k = some p) (hid : v.id = p.id) :
    pendingCount i (assocSet m k v) = pendingCount i m := by
  induction m with
  | nil => simp [assocGet] at h
  | cons kv rest ih =>
    obtain ⟨k₀, v₀⟩ := kv
    by_cases hk : k₀ = k
    · simp only [assocGet, if_pos hk] at h
      have hv : v₀ = p := Option.some.inj h
      subst hv
      simp [assocSet, hk, pendingCount, List.countP_cons, hid]
    · simp only [assocGet, if_neg hk] at h
      have hrest := ih h
      simp only [pendingCount] at hrest
      simp only [assocSet, if_neg hk, pendingCount, List.countP_cons, hrest]

theorem pendingCount_append_one (m : List (Nat × OAPending)) (k : Nat) (p : OAPending)
    (i : String) :
    pendingCount i (m ++ [(k, p)]) =
      pendingCount i m + (if p.id = i then 1 else 0) := by
  simp [pendingCount, List.countP_append, List.countP_cons]

theorem oaProcessTCD_counts (m : List (Nat × OAPending)) (tcd : OAToolCallDelta) (i : String) :
    pendingCount i (oaProcessTCD m tcd).1 =
      pendingCount i m + startCount i (oaProcessTCD m tcd).2 := by
  unfold oaProcessTCD
  rcases hget : assocGet m tcd.index with _ | p
  · by_cases hid : truthyOS tcd.id = true
    · rcases hargs : tcd.fn.bind (fun f => f.arguments) with _ | a
      · simp only [hget, if_pos hid, hargs]
        rw [assocSet_of_get_none m tcd.index _ hget, pendingCount_append_one]
        simp [startCount, List.countP_cons, isStartFor]
      · by_cases ha : a ≠ ""
        · simp only [hget, if_pos hid, hargs, if_pos ha]
          rw [pendingCount_set_idpreserve
            ⟨tcd.id.getD "", (tcd.fn.bind fun f => f.name).getD "", "" ++ a⟩ i
            (assocGet_set_self m tcd.index
              ⟨tcd.id.getD "", (tcd.fn.bind fun f => f.name).getD "", ""⟩) rfl]
          rw [assocSet_of_get_none m tcd.index _ hget, pendingCount_append_one]
          simp [startCount, List.countP_cons, isStartFor]
        · simp only [hget, if_pos hid, hargs, if_neg ha]
          rw [assocSet_of_get_none m tcd.index _ hget, pendingCount_append_one]
          simp [startCount, List.countP_cons, isStartFor]
    · simp only [hget, if_neg hid]
      simp [startCount]
  · rcases hargs : tcd.fn.bind (fun f => f.arguments) with _ | a
    · simp only [hget, hargs]
      simp [startCount]
    · by_cases ha : a ≠ ""
      · simp only [hget, hargs, if_pos ha]
        rw [pendingCount_set_idpreserve ⟨p.id, p.name, p.args ++ a⟩ i hget rfl]
        simp [startCount, List.countP_cons, isStartFor]
      · simp only [hget, hargs, if_neg ha]
        simp [startCount]

theorem countP_eq_zero_of_forall {α : Type} {l : List α} {p : α → Bool}
    (h : ∀ c ∈ l, p c = false) : l.countP p = 0 :=
  List.countP_eq_zero.mpr fun c hc => by simp [h c hc]

theorem oaProcessTCDs_counts (tcds : List OAToolCallDelta) :
    ∀ (m : List (Nat × OAPending)) (i : String),
      pendingCount i (oaProcessTCDs m tcds).1 =
        pendingCount i m + startCount i (oaProcessTCDs m tcds).2 := by
  induction tcds with
  | nil => intro m i; simp [oaProcessTCDs, startCount]
  | cons tcd rest ih =>
    intro m i
    rcases hp : oaProcessTCD m tcd with ⟨m1, chunks⟩
    rcases hq : oaProcessTCDs m1 rest with ⟨m2, more⟩
    have h1 := oaProcessTCD_counts m tcd i
    rw [hp] at h1
    have h2 := ih m1 i
    rw [hq] at h2
    simp only [oaProcessTCDs, hp, hq]
    simp only [startCount, List.countP_append] at h1 h2 ⊢
    omega

theorem oaFinalizeEnds_endCount (m : List (Nat × OAPending)) (i : String) :
    endCount i (oaFinalizeEnds m) = pendingCount i m := by
  rw [endCount, oaFinalizeEnds, List.countP_map, pendingCount]
  refine List.countP_congr fun kv _ => ?_
  simp [Function.comp, isEndFor]

theorem oaFinalizeEnds_startCount (m : List (Nat × OAPending)) (i : String) :
    startCount i (oaFinalizeEnds m) = 0 :=
  countP_eq_zero_of_forall fun c hc => by
    obtain ⟨kv, _, rfl⟩ := List.mem_map.mp hc
    rfl

theorem textChunksShape (oc : Option String) :
    ∀ c ∈ (match oc with
      | some s => if s ≠ "" then [StreamChunk.text s] else []
      | none => ([] : List StreamChunk)), ∃ t, c = StreamChunk.text t := by
  intro c hc
  rcases oc with _ | t
  · simp at hc
  · by_cases ht : t = ""
    · simp [ht] at hc
    · simp only [ne_eq, ht, not_false_eq_true, if_true, if_pos] at hc
      exact ⟨t, List.mem_singleton.mp hc⟩

theorem textChunks_start_zero (oc : Option String) (i : String) :
    startCount i (match oc with
      | some s => if s ≠ "" then [StreamChunk.text s] else []
      | none => ([] : List StreamChunk)) = 0 :=
  countP_eq_zero_of_forall fun c hc => by
    obtain ⟨t, rfl⟩ := textChunksShape oc c hc
    rfl

theorem textChunks_end_zero (oc : Option String) (i : String) :
    endCount i (match oc with
      | some s => if s ≠ "" then [StreamChunk.text s] else []
      | none => ([] : List StreamChunk)) = 0 :=
  countP_eq_zero_of_forall fun c hc => by
    obtain ⟨t, rfl⟩ := textChunksShape oc c hc
    rfl

theorem openAIStreamGo_counts (i : String) :
    ∀ (evs : List OpenAIEvent) (m : List (Nat × OAPending)) (lastFin : Option String),
      endCount i (openAIStreamGo evs m lastFin) =
        startCount i (openAIStreamGo evs m lastFin) + pendingCount i m := by
  intro evs
  induction evs with
  | nil =>
    intro m lastFin
    simp only [openAIStreamGo, endCount, startCount, List.countP_append]
    have e1 := oaFinalizeEnds_endCount m i
    have s1 := oaFinalizeEnds_startCount m i
    rw [endCount] at e1
    rw [startCount] at s1
    simp only [e1, s1, List.countP_cons, List.countP_nil, isEndFor, isStartFor]
    omega
  | cons ev rest ih =>
    intro m lastFin
    cases ev with
    | doneMarker =>
      simp only [openAIStreamGo, endCount, startCount, List.countP_append]
      have e1 := oaFinalizeEnds_endCount m i
      have s1 := oaFinalizeEnds_startCount m i
      rw [endCount] at e1
      rw [startCount] at s1
      simp only [e1, s1, List.countP_cons, List.countP_nil, isEndFor, isStartFor]
      omega
    | data choice usage =>
      cases choice with
      | none => simpa only [openAIStreamGo] using ih m lastFin
      | some ch =>
        rcases hd : ch.delta with _ | d
        · simp only [openAIStreamGo, hd]
          exact ih m lastFin
        · rcases hp : oaProcessTCDs m (d.tool_calls.getD []) with ⟨m1, tcChunks⟩
          have hcnt := oaProcessTCDs_counts (d.tool_calls.getD []) m i
          rw [hp] at hcnt
          have hshape := oaProcessTCDs_chunks_shape (d.tool_calls.getD []) m
          rw [hp] at hshape
          have hend0 : endCount i tcChunks = 0 :=
            countP_eq_zero_of_forall fun c hc => by
              rcases hshape c hc with ⟨i', n, rfl⟩ | ⟨i', a, rfl⟩ <;> rfl
          have hts := textChunks_start_zero d.content i
          have hte := textChunks_end_zero d.content i
          rw [startCount] at hts
          rw [endCount] at hte
          cases usage with
          | some u =>
            simp only [openAIStreamGo, hd, hp]
            have e1 := oaFinalizeEnds_endCount m1 i
            have s1 := oaFinalizeEnds_startCount m1 i
            rw [endCount] at e1
            rw [startCount] at s1
            simp only [endCount, startCount, List.countP_append, List.countP_cons,
              List.countP_nil, isEndFor, isStartFor, hts, hte, e1, s1]
            simp only [endCount, startCount] at hcnt hend0
            omega
          | none =>
            simp only [openAIStreamGo, hd, hp]
            have hrec := ih m1 (if truthyOS ch.finish_reason = true then ch.finish_reason else lastFin)
            simp only [endCount, startCount, List.countP_append, hts, hte]
            simp only [endCount, startCount] at hrec hcnt hend0
            omega

/-- C3 (amended): the OpenAI adapter emits, over the whole stream, exactly
as many tool_call_end chunks as tool_call_start chunks for every tool-call
id, on every termination path (explicit [DONE] marker, usage event, or
abrupt transport close) — every started tool call is finalized and none is
dropped silently.  The Anthropic adapter does not have this property (see
the counterexample). -/
theorem openai_every_started_call_finalized (evs : List OpenAIEvent) (id : String) :
    endCount id (openAIStream evs) = startCount id (openAIStream evs) := by
  have h := openAIStreamGo_counts id evs [] none
  simpa [openAIStream, pendingCount] using h

/-- C3 counterexample: the Anthropic adapter, on a stream whose transport
closes abruptly right after a tool-use block starts, emits a
tool_call_start for id t1 but no tool_call_end for it before the stream
terminates — the still-open call is not finalized. -/
theorem anthropic_open_call_dropped_on_abrupt_end :
    anthropicStream [.contentBlockStart (some ⟨"tool_use", some "t1", some "f"⟩)] =
      [.toolCallStart "t1" "f", .done none none] ∧
    startCount "t1"
      (anthropicStream [.contentBlockStart (some ⟨"tool_use", some "t1", some "f"⟩)]) = 1 ∧
    endCount "t1"
      (anthropicStream [.contentBlockStart (some ⟨"tool_use", some "t1", some "f"⟩)]) = 0 :=
  ⟨rfl, rfl, rfl⟩

theorem processChunks_append {α : Type} (parse : String → Option α) (e : α)
    (l1 l2 : List StreamChunk) :
    ∀ s : ChunkState α, processChunks parse e s (l1 ++ l2) =
      processChunks parse e (processChunks parse e s l1) l2 := by
  induction l1 with
  | nil => intro s; rfl
  | cons c rest ih =>
    intro s
    rw [List.cons_append]
    simp only [processChunks]
    exact ih (processChunk parse e s c)

theorem processChunk_toolCalls_mono {α : Type} (parse : String → Option α) (e : α)
    (s : ChunkState α) (c : StreamChunk) :
    ∃ t, (processChunk parse e s c).toolCalls = s.toolCalls ++ t := by
  cases c with
  | text c => exact ⟨[], by simp [processChunk]⟩
  | toolCallStart i n => exact ⟨[], by simp [processChunk]⟩
  | toolCallDelta i a =>
    cases h : assocGet s.pending i with
    | none => exact ⟨[], by simp [processChunk, h]⟩
    | some p => exact ⟨[], by simp [processChunk, h]⟩
  | toolCallEnd i =>
    cases h : assocGet s.pending i with
    | none => exact ⟨[], by simp [processChunk, h]⟩
    | some p => exact ⟨[⟨p.id, p.name, parseArgsJS parse e p.args⟩], by simp [processChunk, h]⟩
  | done fr u => cases u <;> exact ⟨[], by simp [processChunk]⟩

theorem processChunks_toolCalls_mono {α : Type} (parse : String → Option α) (e : α) :
    ∀ (cs : List StreamChunk) (s : ChunkState α),
      ∃ t, (processChunks parse e s cs).toolCalls = s.toolCalls ++ t := by
  intro cs
  induction cs with
  | nil => intro s; exact ⟨[], by simp [processChunks]⟩
  | cons c rest ih =>
    intro s
    obtain ⟨t1, h1⟩ := processChunk_toolCalls_mono parse e s c
    obtain ⟨t2, h2⟩ := ih (processChunk parse e s c)
    refine ⟨t1 ++ t2, ?_⟩
    simp only [processChunks, h2, h1, List.append_assoc]

theorem processChunks_pending_track {α : Type} (parse : String → Option α) (e : α)
    (id : String) :
    ∀ (mid : List StreamChunk) (s : ChunkState α) (p : PendingTC),
      (∀ c ∈ mid, isStartFor id c = false ∧ isEndFor id c = false) →
      assocGet s.pending id = some p →
      assocGet (processChunks parse e s mid).pending id =
        some ⟨p.id, p.name, p.args ++ deltaConcat id mid⟩ := by
  intro mid
  induction mid with
  | nil =>
    intro s p _ hp
    simpa [processChunks, deltaConcat, String.append_empty] using hp
  | cons c rest ih =>
    intro s p hmid hp
    have hrest : ∀ x ∈ rest, isStartFor id x = false ∧ isEndFor id x = false :=
      fun x hx => hmid x (List.mem_cons_of_mem c hx)
    have hc := hmid c (List.mem_cons_self c rest)
    cases c with
    | text t =>
      have hnext : assocGet (processChunk parse e s (.text t)).pending id = some p := by
        simpa [processChunk] using hp
      simpa [processChunks, deltaConcat] using ih _ p hrest hnext
    | toolCallStart i n =>
      have hne : i ≠ id := by
        intro hh
        simp [isStartFor, hh] at hc
      have hnext : assocGet (processChunk parse e s (.toolCallStart i n)).pending id = some p := by
        simpa [processChunk, assocGet_set_ne s.pending i id _ (fun hh => hne hh.symm)] using hp
      simpa [processChunks, deltaConcat] using ih _ p hrest hnext
    | toolCallDelta i a =>
      by_cases hi : i = id
      · subst hi
        have hnext : assocGet (processChunk parse e s (.toolCallDelta i a)).pending i =
            some ⟨p.id, p.name, p.args ++ a⟩ := by
          simp [processChunk, hp, assocGet_set_self]
        have := ih _ ⟨p.id, p.name, p.args ++ a⟩ hrest hnext
        simp only [processChunks] at this ⊢
        rw [this]
        simp [deltaConcat, String.append_assoc]
      · have hnext : assocGet (processChunk parse e s (.toolCallDelta i a)).pending id = some p := by
          cases hg : assocGet s.pending i with
          | none => simpa [processChunk, hg] using hp
          | some q =>
            simpa [processChunk, hg,
              assocGet_set_ne s.pending i id _ (fun hh => hi hh.symm)] using hp
        have := ih _ p hrest hnext
        simp only [processChunks] at this ⊢
        rw [this]
        simp [deltaConcat, hi, String.empty_append]
    | toolCallEnd i =>
      have hne : i ≠ id := by
        intro hh
        simp [isEndFor, hh] at hc
      have hnext : assocGet (processChunk parse e s (.toolCallEnd i)).pending id = some p := by
        cases hg : assocGet s.pending i with
        | none => simpa [processChunk, hg] using hp
        | some q =>
          simpa [processChunk, hg,
            assocGet_erase_ne s.pending i id (fun hh => hne hh.symm)] using hp
      simpa [processChunks, deltaConcat] using ih _ p hrest hnext
    | done fr u =>
      have hnext : assocGet (processChunk parse e s (.done fr u)).pending id = some p := by
        cases u <;> simpa [processChunk] using hp
      simpa [processChunks, deltaConcat] using ih _ p hrest hnext

/-- C2: for every streamed response and every tool-call identifier, the
ToolCall finalized when that identifier's tool_call_end chunk is processed
has arguments equal to JSON-parsing the concatenation, in arrival order, of
exactly that identifier's tool_call_delta fragments (fragments of other
identifiers, given here as arbitrary interleaved chunks in `mid` that
neither start nor end this identifier, are never mixed into its
accumulation); and if the concatenated text is empty or fails to parse, the
arguments are the empty object `e` (the ToolCall is still produced, so the
round continues). -/
theorem accumulator_parses_concatenated_fragments {α : Type}
    (parse : String → Option α) (e : α)
    (pre mid post : List StreamChunk) (id name : String) (tp tc : Nat)
    (hmid : ∀ c ∈ mid, isStartFor id c = false ∧ isEndFor id c = false) :
    (ToolCallG.mk id name (parseArgsJS parse e (deltaConcat id mid)) ∈
      (runRound parse e
        (pre ++ StreamChunk.toolCallStart id name ::
          (mid ++ StreamChunk.toolCallEnd id :: post)) tp tc).toolCalls) ∧
    (deltaConcat id mid = "" → parseArgsJS parse e (deltaConcat id mid) = e) ∧
    (parse (deltaConcat id mid) = none → parseArgsJS parse e (deltaConcat id mid) = e) := by
  refine ⟨?_, fun h => by simp [parseArgsJS, h], fun h => by simp [parseArgsJS, h]⟩
  rw [runRound, processChunks_append]
  set s1 := processChunks parse e (initChunkState α tp tc) pre with hs1
  simp only [processChunks]
  set s2 := processChunk parse e s1 (StreamChunk.toolCallStart id name) with hs2
  have hget2 : assocGet s2.pending id = some ⟨id, name, ""⟩ := by
    rw [hs2]
    simp [processChunk, assocGet_set_self]
  rw [processChunks_append]
  set s3 := processChunks parse e s2 mid with hs3
  have hget3 : assocGet s3.pending id = some ⟨id, name, "" ++ deltaConcat id mid⟩ :=
    processChunks_pending_track parse e id mid s2 ⟨id, name, ""⟩ hmid hget2
  have hget3' : assocGet s3.pending id = some ⟨id, name, deltaConcat id mid⟩ := by
    rw [hget3, String.empty_append]
  simp only [processChunks]
  set s4 := processChunk parse e s3 (StreamChunk.toolCallEnd id) with hs4
  have htc4 : s4.toolCalls =
      s3.toolCalls ++ [⟨id, name, parseArgsJS parse e (deltaConcat id mid)⟩] := by
    rw [hs4]
    simp [processChunk, hget3']
  obtain ⟨t, ht⟩ := processChunks_toolCalls_mono parse e post s4
  rw [ht, htc4]
  simp

/-- C2 witness: a concrete round in which id a's two fragments, interleaved
with a fragment for id b, concatenate to the parsed argument string xy. -/
theorem accumulator_parses_concatenated_fragments_witness :
    ToolCallG.mk "a" "f"
      (parseArgsJS (fun s => some s) "" (deltaConcat "a"
        [StreamChunk.toolCallDelta "a" "x", StreamChunk.toolCallDelta "b" "q",
          StreamChunk.toolCallDelta "a" "y"])) ∈
      (runRound (fun s => some s) ""
        ([] ++ StreamChunk.toolCallStart "a" "f" ::
          ([StreamChunk.toolCallDelta "a" "x", StreamChunk.toolCallDelta "b" "q",
            StreamChunk.toolCallDelta "a" "y"] ++
            StreamChunk.toolCallEnd "a" :: [])) 0 0).toolCalls :=
  (accumulator_parses_concatenated_fragments (fun s => some s) "" []
    [StreamChunk.toolCallDelta "a" "x", StreamChunk.toolCallDelta "b" "q",
      StreamChunk.toolCallDelta "a" "y"] [] "a" "f" 0 0 (by decide)).1

/-- C10: a tool_call_delta or tool_call_end chunk whose toolCallId was never
introduced by a preceding tool_call_start is ignored without error: the
chunk loop state — tool calls produced, events emitted, and every other
pending accumulator entry — is left completely unchanged. -/
theorem unknown_id_chunks_ignored {α : Type} (parse : String → Option α) (e : α)
    (s : ChunkState α) (id args : String) (h : assocGet s.pending id = none) :
    processChunk parse e s (StreamChunk.toolCallDelta id args) = s ∧
    processChunk parse e s (StreamChunk.toolCallEnd id) = s := by
  constructor <;> simp [processChunk, h]

/-- C10 witness: a concrete state with one pending entry for id known, hit
by delta and end chunks for the unknown id ghost. -/
theorem unknown_id_chunks_ignored_witness :
    processChunk (fun s => some s) ""
      ⟨"", [], [("known", ⟨"known", "t", "x"⟩)], none, 0, 0, []⟩
      (StreamChunk.toolCallDelta "ghost" "z") =
      ⟨"", [], [("known", ⟨"known", "t", "x"⟩)], none, 0, 0, []⟩ ∧
    processChunk (fun s => some s) ""
      ⟨"", [], [("known", ⟨"known", "t", "x"⟩)], none, 0, 0, []⟩
      (StreamChunk.toolCallEnd "ghost") =
      ⟨"", [], [("known", ⟨"known", "t", "x"⟩)], none, 0, 0, []⟩ :=
  unknown_id_chunks_ignored (fun s => some s) ""
    ⟨"", [], [("known", ⟨"known", "t", "x"⟩)], none, 0, 0, []⟩ "ghost" "z" (by decide)

theorem hasCalls_false_cases {α : Type} (m : ChatMessage α) (h : hasCalls m = false) :
    m.toolCalls = none ∨ m.toolCalls = some [] := by
  cases hc : m.toolCalls with
  | none => exact .inl rfl
  | some l =>
    cases l with
    | nil => exact .inr rfl
    | cons x xs => simp [hasCalls, hc] at h

theorem flattenToolHistory_clean {α : Type} :
    ∀ (h : List (ChatMessage α)), ∀ m ∈ flattenToolHistory h,
      m.role ≠ Role.tool ∧ (m.role = Role.assistant → hasCalls m = false) := by
  intro h
  induction h with
  | nil => intro m hm; simp [flattenToolHistory] at hm
  | cons msg rest ih =>
    intro m hm
    by_cases h1 : msg.role = Role.tool
    · simp only [flattenToolHistory, if_pos h1] at hm
      exact ih m hm
    · by_cases h2 : msg.role = Role.assistant ∧ hasCalls msg = true
      · simp only [flattenToolHistory, if_neg h1, if_pos h2] at hm
        rcases List.mem_cons.mp hm with rfl | hm
        · exact ⟨by simp, fun _ => by simp [hasCalls]⟩
        · exact ih m hm
      · simp only [flattenToolHistory, if_neg h1, if_neg h2] at hm
        rcases List.mem_cons.mp hm with rfl | hm
        · refine ⟨h1, fun ha => ?_⟩
          by_contra hc
          exact h2 ⟨ha, by simpa using hc⟩
        · exact ih m hm

theorem flattenToolHistory_id_of_clean {α : Type} :
    ∀ (h : List (ChatMessage α)),
      (∀ m ∈ h, m.role ≠ Role.tool ∧ (m.role = Role.assistant → hasCalls m = false)) →
      flattenToolHistory h = h := by
  intro h
  induction h with
  | nil => intro _; rfl
  | cons msg rest ih =>
    intro hc
    have hm := hc msg (List.mem_cons_self msg rest)
    have h1 : ¬ msg.role = Role.tool := hm.1
    have h2 : ¬ (msg.role = Role.assistant ∧ hasCalls msg = true) := by
      rintro ⟨ha, hb⟩
      rw [hm.2 ha] at hb
      exact Bool.false_ne_true hb
    simp only [flattenToolHistory, if_neg h1, if_neg h2]
    rw [ih fun m hmm => hc m (List.mem_cons_of_mem msg hmm)]

/-- C6: History Normalization is idempotent — flattening already-flattened
history is a no-op, for every conversation history. -/
theorem flattenToolHistory_idempotent {α : Type} (h : List (ChatMessage α)) :
    flattenToolHistory (flattenToolHistory h) = flattenToolHistory h :=
  flattenToolHistory_id_of_clean _ (flattenToolHistory_clean h)

theorem flattenToolHistory_length {α : Type} :
    ∀ h : List (ChatMessage α), (flattenToolHistory h).length ≤ h.length := by
  intro h
  induction h with
  | nil => simp [flattenToolHistory]
  | cons msg rest ih =>
    by_cases h1 : msg.role = Role.tool
    · simp only [flattenToolHistory, if_pos h1, List.length_cons]
      exact Nat.le_succ_of_le ih
    · by_cases h2 : msg.role = Role.assistant ∧ hasCalls msg = true
      · simp only [flattenToolHistory, if_neg h1, if_pos h2, List.length_cons]
        exact Nat.succ_le_succ ih
      · simp only [flattenToolHistory, if_neg h1, if_neg h2, List.length_cons]
        exact Nat.succ_le_succ ih

theorem flattenToolHistory_no_tool_structs {α : Type} :
    ∀ (h : List (ChatMessage α)), WellFormedHistory h →
      ∀ m ∈ flattenToolHistory h,
        m.role ≠ Role.tool ∧ m.toolCalls = none ∧ m.toolResults = none := by
  intro h
  induction h with
  | nil => intro _ m hm; simp [flattenToolHistory] at hm
  | cons msg rest ih =>
    intro hwf m hm
    have hwfrest : WellFormedHistory rest := fun x hx => hwf x (List.mem_cons_of_mem _ hx)
    have hwfmsg := hwf msg (List.mem_cons_self _ _)
    by_cases h1 : msg.role = Role.tool
    · simp only [flattenToolHistory, if_pos h1] at hm
      exact ih hwfrest m hm
    · by_cases h2 : msg.role = Role.assistant ∧ hasCalls msg = true
      · simp only [flattenToolHistory, if_neg h1, if_pos h2] at hm
        rcases List.mem_cons.mp hm with rfl | hm
        · exact ⟨by simp, by simp, by simp⟩
        · exact ih hwfrest m hm
      · simp only [flattenToolHistory, if_neg h1, if_neg h2] at hm
        rcases List.mem_cons.mp hm with rfl | hm
        · refine ⟨h1, ?_, hwfmsg.2.1 h1⟩
          rcases hrole : m.role with _ | _ | _
          · exact hwfmsg.1 (by rw [hrole]; intro hh; cases hh)
          · have hcf : hasCalls m = false := by
              by_contra hcc
              exact h2 ⟨hrole, by simpa using hcc⟩
            rcases hasCalls_false_cases m hcf with hn | hs
            · exact hn
            · exact absurd hs hwfmsg.2.2.1
          · exact absurd hrole h1
        · exact ih hwfrest m hm

/-- C5: for any well-formed conversation history (tool invocations only on
assistant turns, tool results only on tool turns, optional lists absent
rather than empty), History Normalization leaves no tool-call or
tool-result structure — no turn of role tool, no turn carrying toolCalls or
toolResults — and the turn count does not increase. -/
theorem history_normalization_removes_tool_structures {α : Type}
    (h : List (ChatMessage α)) (hwf : WellFormedHistory h) :
    (∀ m ∈ flattenToolHistory h,
      m.role ≠ Role.tool ∧ m.toolCalls = none ∧ m.toolResults = none) ∧
    (flattenToolHistory h).length ≤ h.length :=
  ⟨flattenToolHistory_no_tool_structs h hwf, flattenToolHistory_length h⟩

/-- C5 witness: a three-turn history (user; assistant with a tool call; tool
results) is flattened to turns free of tool structures, without growing. -/
theorem history_normalization_removes_tool_structures_witness :
    (∀ m ∈ flattenToolHistory
        [(⟨"u", Role.user, "hi", none, none, 0⟩ : ChatMessage Unit),
          ⟨"s", Role.assistant, "working", some [⟨"c1", "t", ()⟩], none, 0⟩,
          ⟨"t", Role.tool, "r", none, some [⟨"c1", "t", "res", false⟩], 0⟩],
      m.role ≠ Role.tool ∧ m.toolCalls = none ∧ m.toolResults = none) ∧
    (flattenToolHistory
        [(⟨"u", Role.user, "hi", none, none, 0⟩ : ChatMessage Unit),
          ⟨"s", Role.assistant, "working", some [⟨"c1", "t", ()⟩], none, 0⟩,
          ⟨"t", Role.tool, "r", none, some [⟨"c1", "t", "res", false⟩], 0⟩]).length ≤ 3 :=
  history_normalization_removes_tool_structures _
    (by unfold WellFormedHistory; decide)

theorem findUserIdx_some_head {α : Type} :
    ∀ (l : List (ChatMessage α)) (j : Nat), findUserIdx l = some j →
      ∃ m rest, l.drop j = m :: rest ∧ m.role = Role.user := by
  intro l
  induction l with
  | nil => intro j h; simp [findUserIdx] at h
  | cons m0 rest ih =>
    intro j h
    by_cases hu : m0.role = Role.user
    · simp only [findUserIdx, if_pos hu] at h
      rcases Option.some.inj h with rfl
      exact ⟨m0, rest, by simp, hu⟩
    · simp only [findUserIdx, if_neg hu] at h
      cases hf : findUserIdx rest with
      | none => rw [hf] at h; simp at h
      | some j' =>
        rw [hf] at h
        simp only [Option.map_some'] at h
        obtain ⟨m, r, hd, hr⟩ := ih j' hf
        refine ⟨m, r, ?_, hr⟩
        rcases Option.some.inj h with rfl
        simpa [List.drop] using hd

theorem findUserIdx_none {α : Type} :
    ∀ (l : List (ChatMessage α)), findUserIdx l = none → ∀ m ∈ l, m.role ≠ Role.user := by
  intro l
  induction l with
  | nil => intro _ m hm; simp at hm
  | cons m0 rest ih =>
    intro h m hm
    by_cases hu : m0.role = Role.user
    · simp [findUserIdx, hu] at h
    · simp only [findUserIdx, if_neg hu] at h
      cases hf : findUserIdx rest with
      | some j => rw [hf] at h; simp at h
      | none =>
        rcases List.mem_cons.mp hm with rfl | hm
        · exact hu
        · exact ih hf m hm

/-- C9 (amended): after flattening, runAgent trims the saved history with
trimHistory at the cap MAX_HISTORY = 20.  The trimmed result always has at
most 20 turns, a history of at most 20 turns is returned unchanged, and for
a longer history the result begins at a user turn provided the last 20
turns contain one; when the 20-turn window contains no user turn the code
falls back to the plain last-20 slice, which need not begin at a user turn
(see the counterexample). -/
theorem trimHistory_spec {α : Type} (messages : List (ChatMessage α)) :
    (trimHistory messages MAX_HISTORY).length ≤ MAX_HISTORY ∧
    (messages.length ≤ MAX_HISTORY → trimHistory messages MAX_HISTORY = messages) ∧
    (messages.length > MAX_HISTORY →
      (∃ m ∈ messages.drop (messages.length - MAX_HISTORY), m.role = Role.user) →
      ∃ m rest, trimHistory messages MAX_HISTORY = m :: rest ∧ m.role = Role.user) := by
  by_cases hlen : messages.length ≤ MAX_HISTORY
  · rw [trimHistory, if_pos hlen]
    exact ⟨hlen, fun _ => rfl, fun hgt => absurd hlen (by omega)⟩
  · have hgt : MAX_HISTORY < messages.length := Nat.lt_of_not_le hlen
    cases hf : findUserIdx (messages.drop (messages.length - MAX_HISTORY)) with
    | some j =>
      simp only [trimHistory, if_neg hlen, hf]
      obtain ⟨m, rest, hd, hr⟩ := findUserIdx_some_head _ j hf
      have hdd : messages.drop (messages.length - MAX_HISTORY + j) = m :: rest := by
        rw [← List.drop_drop]
        exact hd
      refine ⟨?_, fun hle => absurd hle hlen, fun _ _ => ⟨m, rest, hdd, hr⟩⟩
      rw [List.length_drop]
      omega
    | none =>
      simp only [trimHistory, if_neg hlen, hf]
      refine ⟨?_, fun hle => absurd hle hlen, fun _ hex => ?_⟩
      · rw [List.length_drop]
        omega
      · obtain ⟨m, hm, hr⟩ := hex
        exact absurd hr (findUserIdx_none _ hf m hm)

/-- C9 witness: a 21-turn history of user turns is trimmed to one that
begins at a user turn. -/
theorem trimHistory_spec_witness :
    ∃ m rest,
      trimHistory (List.replicate 21 (⟨"u", Role.user, "hi", none, none, 0⟩ : ChatMessage Unit))
        MAX_HISTORY = m :: rest ∧ m.role = Role.user :=
  (trimHistory_spec _).2.2 (by decide)
    ⟨⟨"u", Role.user, "hi", none, none, 0⟩, by decide, rfl⟩

/-- C9 counterexample: a 21-turn history consisting only of assistant turns
is longer than the cap, and its trim is the plain last-20 slice, which
begins at an assistant turn, not a user turn. -/
theorem trimHistory_no_user_boundary_counterexample :
    (List.replicate 21 (⟨"a", Role.assistant, "x", none, none, 0⟩ : ChatMessage Unit)).length >
      MAX_HISTORY ∧
    trimHistory
      (List.replicate 21 (⟨"a", Role.assistant, "x", none, none, 0⟩ : ChatMessage Unit))
      MAX_HISTORY =
      List.replicate 20 (⟨"a", Role.assistant, "x", none, none, 0⟩ : ChatMessage Unit) ∧
    (trimHistory
      (List.replicate 21 (⟨"a", Role.assistant, "x", none, none, 0⟩ : ChatMessage Unit))
      MAX_HISTORY).head? =
      some (⟨"a", Role.assistant, "x", none, none, 0⟩ : ChatMessage Unit) ∧
    Role.assistant ≠ Role.user := by
  refine ⟨by decide, by decide, by decide, by decide⟩

theorem execToolCalls_eq_map {α : Type} (registry : String → Option (α → Except String String)) :
    ∀ calls : List (ToolCallG α),
      execToolCalls registry calls =
        (calls.map fun tc => (execOneCall registry tc).1,
          calls.map fun tc => (execOneCall registry tc).2) := by
  intro calls
  induction calls with
  | nil => rfl
  | cons tc rest ih =>
    rcases he : execOneCall registry tc with ⟨r, ev⟩
    simp [execToolCalls, he, ih]

/-- C7: within one round, runAgent's execution loop processes the
invocations strictly sequentially in call order — the result list and the
event list are the pointwise images of the call list, so each invocation
yields exactly one ToolResult with its own id, independent of its siblings,
and no failing invocation aborts the round.  An unregistered name and a
throwing execution each produce an error-flagged ToolResult (and a
tool_error event) for that invocation alone. -/
theorem tool_execution_sequential_and_isolated {α : Type}
    (registry : String → Option (α → Except String String))
    (calls : List (ToolCallG α)) :
    (execToolCalls registry calls).1 = calls.map (fun tc => (execOneCall registry tc).1) ∧
    (execToolCalls registry calls).2 = calls.map (fun tc => (execOneCall registry tc).2) ∧
    (∀ tc : ToolCallG α, registry tc.name = none →
      (execOneCall registry tc).1 = ⟨tc.id, tc.name, "Unknown tool: " ++ tc.name, true⟩ ∧
      (execOneCall registry tc).2 =
        AgentEvent.toolError ("Unknown tool: " ++ tc.name) tc.id) ∧
    (∀ (tc : ToolCallG α) (f : α → Except String String) (msg : String),
      registry tc.name = some f → f tc.arguments = Except.error msg →
      (execOneCall registry tc).1 = ⟨tc.id, tc.name, msg, true⟩) ∧
    (∀ (tc : ToolCallG α) (f : α → Except String String) (out : String),
      registry tc.name = some f → f tc.arguments = Except.ok out →
      (execOneCall registry tc).1 = ⟨tc.id, tc.name, out, false⟩) := by
  refine ⟨?_, ?_, ?_, ?_, ?_⟩
  · rw [execToolCalls_eq_map]
  · rw [execToolCalls_eq_map]
  · intro tc hn
    constructor <;> simp [execOneCall, hn]
  · intro tc f msg hf he
    simp [execOneCall, hf, he]
  · intro tc f out hf he
    simp [execOneCall, hf, he]

/-- C7 witness: a round with a registered tool t and the unregistered name
unknown_tool — the unknown invocation yields one error-flagged result for
its id while its sibling still executes. -/
theorem tool_execution_sequential_and_isolated_witness :
    (execOneCall (fun n => if n = "t" then some (fun _ => Except.ok "r") else none)
        (⟨"2", "unknown_tool", ()⟩ : ToolCallG Unit)).1 =
      ⟨"2", "unknown_tool", "Unknown tool: unknown_tool", true⟩ ∧
    (execToolCalls (fun n => if n = "t" then some (fun _ => Except.ok "r") else none)
        [(⟨"1", "t", ()⟩ : ToolCallG Unit), ⟨"2", "unknown_tool", ()⟩]).1 =
      [⟨"1", "t", "r", false⟩, ⟨"2", "unknown_tool", "Unknown tool: unknown_tool", true⟩] := by
  have h := tool_execution_sequential_and_isolated
    (fun n => if n = "t" then some (fun _ => Except.ok "r") else none)
    [(⟨"1", "t", ()⟩ : ToolCallG Unit), ⟨"2", "unknown_tool", ()⟩]
  refine ⟨(h.2.2.1 ⟨"2", "unknown_tool", ()⟩ (by rfl)).1, ?_⟩
  rw [h.1]
  rfl

/-- C8: on the non-streaming path, a non-success HTTP status (such as 429)
makes both adapters' chat operation fail with the UpstreamError carrying
exactly the response status and body; in particular no LLMResponse is
produced, so the caller has no assistant turn to append and the
conversation state is unchanged. -/
theorem chat_fails_with_upstream_error_no_turn {α : Type} (parse : String → Option α)
    (respA : HttpResponse (AnthChatData α)) (respO : HttpResponse OAChatData)
    (hA : fetchOk respA.status = false) (hO : fetchOk respO.status = false) :
    anthropicChat respA = Except.error (ChatError.upstream respA.status respA.body) ∧
    openAIChat parse respO = Except.error (ChatError.upstream respO.status respO.body) ∧
    (∀ r : LLMResponse α, anthropicChat respA ≠ Except.ok r) ∧
    (∀ r : LLMResponse α, openAIChat parse respO ≠ Except.ok r) := by
  have h1 : anthropicChat respA =
      Except.error (ChatError.upstream respA.status respA.body) := by
    rw [anthropicChat, if_neg (by simp [hA])]
  have h2 : openAIChat parse respO =
      Except.error (ChatError.upstream respO.status respO.body) := by
    rw [openAIChat, if_neg (by simp [hO])]
  refine ⟨h1, h2, fun r hr => ?_, fun r hr => ?_⟩
  · rw [h1] at hr
    cases hr
  · rw [h2] at hr
    cases hr

/-- C8 witness: HTTP 429 with body rate limited on both adapters. -/
theorem chat_fails_with_upstream_error_no_turn_witness :
    anthropicChat (⟨429, "rate limited", ⟨[], none⟩⟩ : HttpResponse (AnthChatData Unit)) =
      Except.error (ChatError.upstream 429 "rate limited") ∧
    openAIChat (fun _ => some ())
        (⟨429, "rate limited", ⟨[], none⟩⟩ : HttpResponse OAChatData) =
      Except.error (ChatError.upstream 429 "rate limited") := by
  have h := chat_fails_with_upstream_error_no_turn (fun _ => some ())
    (⟨429, "rate limited", ⟨[], none⟩⟩ : HttpResponse (AnthChatData Unit))
    (⟨429, "rate limited", ⟨[], none⟩⟩ : HttpResponse OAChatData)
    (by decide) (by decide)
  exact ⟨h.1, h.2.1⟩

theorem processChunk_events_extend {α : Type} (parse : String → Option α) (e : α)
    (s : ChunkState α) (c : StreamChunk) :
    ∃ k, (processChunk parse e s c).events = s.events ++ k ∧
      ∀ ev ∈ k, isErrorEvent ev = false := by
  cases c with
  | text t => exact ⟨[.text t], by simp [processChunk], by simp [isErrorEvent]⟩
  | toolCallStart i n => exact ⟨[], by simp [processChunk], by simp⟩
  | toolCallDelta i a =>
    cases h : assocGet s.pending i with
    | none => exact ⟨[], by simp [processChunk, h], by simp⟩
    | some p => exact ⟨[], by simp [processChunk, h], by simp⟩
  | toolCallEnd i =>
    cases h : assocGet s.pending i with
    | none => exact ⟨[], by simp [processChunk, h], by simp⟩
    | some p => exact ⟨[], by simp [processChunk, h], by simp⟩
  | done fr u =>
    cases u with
    | none => exact ⟨[], by simp [processChunk], by simp⟩
    | some usage =>
      exact ⟨[AgentEvent.usage (s.totalPromptTokens + usage.promptTokens)
        (s.totalCompletionTokens + usage.completionTokens)],
        by simp [processChunk], by simp [isErrorEvent]⟩

theorem processChunks_events_no_error {α : Type} (parse : String → Option α) (e : α) :
    ∀ (cs : List StreamChunk) (s : ChunkState α),
      (∀ ev ∈ s.events, isErrorEvent ev = false) →
      ∀ ev ∈ (processChunks parse e s cs).events, isErrorEvent ev = false := by
  intro cs
  induction cs with
  | nil => intro s hs; simpa [processChunks] using hs
  | cons c rest ih =>
    intro s hs
    obtain ⟨k, hk, hkno⟩ := processChunk_events_extend parse e s c
    refine ih (processChunk parse e s c) ?_
    rw [hk]
    intro ev hev
    rcases List.mem_append.mp hev with h | h
    · exact hs ev h
    · exact hkno ev h

theorem execToolCalls_events_no_error {α : Type}
    (registry : String → Option (α → Except String String)) (calls : List (ToolCallG α)) :
    ∀ ev ∈ (execToolCalls registry calls).2, isErrorEvent ev = false := by
  rw [execToolCalls_eq_map registry calls]
  intro ev hev
  obtain ⟨tc, _, rfl⟩ := List.mem_map.mp hev
  cases hr : registry tc.name with
  | none => simp [execOneCall, hr, isErrorEvent]
  | some f =>
    cases hx : f tc.arguments with
    | error msg => simp [execOneCall, hr, hx, isErrorEvent]
    | ok out => simp [execOneCall, hr, hx, isErrorEvent]

theorem agentLoop_rounds_le {α : Type} (parse : String → Option α) (e : α)
    (genId : Unit → String) (now : Unit → Nat) (provider : Nat → List StreamChunk)
    (registry : String → Option (α → Except String String)) :
    ∀ (fuel iteration : Nat) (history : List (ChatMessage α)) (tp tc : Nat),
      (agentLoop parse e genId now provider registry fuel iteration history tp tc).rounds ≤
        fuel := by
  intro fuel
  induction fuel with
  | zero => intro it hist tp tc; simp [agentLoop]
  | succ n ih =>
    intro it hist tp tc
    simp only [agentLoop]
    by_cases hz : (runRound parse e (provider it) tp tc).toolCalls.length = 0
    · rw [if_pos hz]
      exact Nat.succ_le_succ (Nat.zero_le n)
    · rw [if_neg hz]
      rcases hex : execToolCalls registry (runRound parse e (provider it) tp tc).toolCalls
        with ⟨toolResults, execEvents⟩
      exact Nat.succ_le_succ (ih (it + 1) _ _ _)

theorem agentLoop_no_error {α : Type} (parse : String → Option α) (e : α)
    (genId : Unit → String) (now : Unit → Nat) (provider : Nat → List StreamChunk)
    (registry : String → Option (α → Except String String)) :
    ∀ (fuel iteration : Nat) (history : List (ChatMessage α)) (tp tc : Nat),
      ∀ ev ∈ (agentLoop parse e genId now provider registry fuel iteration history tp tc).events,
        isErrorEvent ev = false := by
  intro fuel
  induction fuel with
  | zero => intro it hist tp tc ev hev; simp [agentLoop] at hev
  | succ n ih =>
    intro it hist tp tc ev hev
    simp only [agentLoop] at hev
    have hround : ∀ x ∈ (runRound parse e (provider it) tp tc).events, isErrorEvent x = false :=
      processChunks_events_no_error parse e _ _ (by simp [initChunkState])
    by_cases hz : (runRound parse e (provider it) tp tc).toolCalls.length = 0
    · rw [if_pos hz] at hev
      rcases List.mem_append.mp hev with h | h
      · exact hround ev h
      · by_cases h1 : (runRound parse e (provider it) tp tc).finishReason = some "length"
        · rw [if_pos h1] at h
          rcases List.mem_singleton.mp h with rfl
          rfl
        · rw [if_neg h1] at h
          by_cases h2 : it = 0 ∧ (runRound parse e (provider it) tp tc).assistantContent.trim = ""
          · rw [if_pos h2] at h
            rcases List.mem_singleton.mp h with rfl
            rfl
          · rw [if_neg h2] at h
            simp at h
    · rw [if_neg hz] at hev
      rcases hex : execToolCalls registry (runRound parse e (provider it) tp tc).toolCalls
        with ⟨toolResults, execEvents⟩
      rw [hex] at hev
      have hexecno : ∀ x ∈ execEvents, isErrorEvent x = false := by
        have h2 := execToolCalls_events_no_error registry
          (runRound parse e (provider it) tp tc).toolCalls
        rw [hex] at h2
        exact h2
      rcases List.mem_append.mp hev with h | h
      · rcases List.mem_append.mp h with h | h
        · rcases List.mem_append.mp h with h | h
          · exact hround ev h
          · rcases List.mem_singleton.mp h with rfl
            rfl
        · exact hexecno ev h
      · exact ih (it + 1) _ _ _ ev h

/-- C4: for every conversation — in particular one in which every model turn
requests further tool calls — the orchestration loop performs at most 5
(MAX_ITERATIONS) rounds, and exhausting the round cap terminates the run
normally: the event sequence ends with the terminal done event and contains
no error event. -/
theorem orchestration_round_cap {α : Type} (parse : String → Option α) (e : α)
    (genId : Unit → String) (now : Unit → Nat) (provider : Nat → List StreamChunk)
    (registry : String → Option (α → Except String String))
    (chatHistory : List (ChatMessage α)) (userMessage : String) :
    (runAgent parse e genId now provider registry chatHistory userMessage).rounds ≤ 5 ∧
    (∃ tp tc,
      (runAgent parse e genId now provider registry chatHistory userMessage).events.getLast? =
        some (AgentEvent.done tp tc)) ∧
    (∀ ev ∈ (runAgent parse e genId now provider registry chatHistory userMessage).events,
      isErrorEvent ev = false) := by
  refine ⟨agentLoop_rounds_le parse e genId now provider registry MAX_ITERATIONS 0 _ 0 0,
    ⟨_, _, List.getLast?_concat _⟩, ?_⟩
  intro ev hev
  rcases List.mem_append.mp hev with h | h
  · exact agentLoop_no_error parse e genId now provider registry MAX_ITERATIONS 0 _ 0 0 ev h
  · rcases List.mem_singleton.mp h with rfl
    rfl

/-- With a provider that requests a tool call on every turn and a registry
that always answers, the loop runs exactly 5 rounds and stops. -/
theorem orchestration_round_cap_reached :
    (runAgent (fun _ => some ()) () (fun _ => "id") (fun _ => 7)
      (fun _ => [StreamChunk.toolCallStart "1" "t", StreamChunk.toolCallDelta "1" "x",
        StreamChunk.toolCallEnd "1", StreamChunk.done (some "tool_use") none])
      (fun n => if n = "t" then some (fun _ => Except.ok "again") else none)
      [] "go").rounds = 5 := by
  rfl
